import Mathlib

/-!
Shallow embedding of `src/scripts/perceptron.py` (class `Perceptron`).

Numeric values are modelled as rationals (`ℚ`): every quantity the claims
speak about (dot products, perceptron updates, error counts, accuracies,
the margin bound for `ρ ≠ 0`) is exact rational arithmetic in the source
when the inputs are rational, so `ℚ` is a faithful carrier.  The one place
where IEEE-754 behaviour matters — `evaluar_cota` dividing by `ρ² = 0`,
which NumPy turns into `inf`/`nan` instead of raising — is modelled by a
small float-like type `NFloat` with NumPy division/multiplication
semantics for the non-finite cases.

Python object state (`self.w`, `self.b`, `self.learning_rate`,
`self.error_history`, `self.accuracy_history`, `self.training_data`) is
a `Perceptron` structure threaded explicitly: a method that can mutate
state is a function `Perceptron → ... → Perceptron × result`.

Source correspondence (line numbers refer to `src/scripts/perceptron.py`):
* `dot`            — `np.dot` on two vectors of equal length;
* `predictOne`     — `predict` (lines 41-43) on a single sample
                     (`z = np.dot(x, w) + b; np.where(z >= 0, 1, -1)`);
* `predictBatch`   — `predict` on an `(n, p)` batch: NumPy computes the
                     sign row-wise, i.e. a `map` of the single-sample case;
* `epochGo`        — the inner `for i in range(len(x))` loop of `train`
                     (lines 68-77): per-sample immediate update
                     `w += lr*e*x[i]`, `b += lr*e`, counting errors/correct;
* `trainGo`        — the outer `for epoch in range(epochs)` loop
                     (lines 61-90), including the detail that the `break`
                     on `errors == 0` sits inside `if resultados:` while
                     `convergence_epoch = epoch + 1` does not;
* `train`          — `train` (lines 45-95): stores `training_data`,
                     initialises `convergence_epoch = epochs`, runs the
                     loop, returns the final state plus `convergence_epoch`;
* `evaluarCota`    — `evaluar_cota` (lines 15-33).  The source computes
                     `R = max_i ||x_i||` and then only ever uses `R ** 2`;
                     since squaring is monotone on non-negative reals,
                     `R²` equals the maximum of the squared norms, which is
                     the rational quantity carried here as `R2`.  `margins`,
                     `ρ`, `||w||²` are exact rationals; the final
                     `bound = R²/ρ² * ||w||²` and the comparison
                     `steps <= bound` go through `NFloat` to keep NumPy's
                     divide-by-zero behaviour;
* `evaluarCotaM` / `predictM` — the same operations as methods on a
                     `Perceptron` state: the source bodies never read or
                     write `self` (for `evaluar_cota`) resp. only read
                     `self.w`, `self.b` (for `predict`), hence the state
                     component of the result is the input state unchanged.
-/

/-- NumPy float results as needed by `evaluar_cota`: a finite rational or
one of the non-finite IEEE values. -/
inductive NFloat where
  | fin (q : ℚ)
  | inf
  | neginf
  | nan
  deriving DecidableEq

/-- NumPy float division (`a / b` with divide-by-zero producing
`inf`/`-inf`/`nan` and a warning, never an exception). -/
def NFloat.div : NFloat → NFloat → NFloat
  | nan, _ => nan
  | fin _, nan => nan
  | inf, nan => nan
  | neginf, nan => nan
  | fin a, fin b =>
      if b = 0 then (if a = 0 then nan else if 0 < a then inf else neginf)
      else fin (a / b)
  | fin _, inf => fin 0
  | fin _, neginf => fin 0
  | inf, fin b => if 0 ≤ b then inf else neginf
  | neginf, fin b => if 0 ≤ b then neginf else inf
  | inf, inf => nan
  | inf, neginf => nan
  | neginf, inf => nan
  | neginf, neginf => nan

/-- NumPy float multiplication on the same value domain. -/
def NFloat.mul : NFloat → NFloat → NFloat
  | nan, _ => nan
  | fin _, nan => nan
  | inf, nan => nan
  | neginf, nan => nan
  | fin a, fin b => fin (a * b)
  | fin a, inf => if a = 0 then nan else if 0 < a then inf else neginf
  | fin a, neginf => if a = 0 then nan else if 0 < a then neginf else inf
  | inf, fin b => if b = 0 then nan else if 0 < b then inf else neginf
  | neginf, fin b => if b = 0 then nan else if 0 < b then neginf else inf
  | inf, inf => inf
  | inf, neginf => neginf
  | neginf, inf => neginf
  | neginf, neginf => inf

/-- The Python comparison `s <= v` for a finite `s` against a float `v`
(`s <= inf` is true, comparisons against `nan` are false). -/
def NFloat.leQ (s : ℚ) : NFloat → Bool
  | fin b => decide (s ≤ b)
  | inf => true
  | neginf => false
  | nan => false

/-- The state a `Perceptron` object carries (`__init__`, lines 6-13).
Weights are a plain vector: the source keeps `w` as a `(p, 1)` column and
always uses it as the vector of its `p` entries. -/
structure Perceptron where
  w : List ℚ
  b : ℚ
  learning_rate : ℚ
  error_history : List ℕ
  accuracy_history : List ℚ
  training_data : Option (List (List ℚ) × List ℚ)
  deriving DecidableEq

/-- `np.dot` of two vectors of equal length. -/
def dot (a b : List ℚ) : ℚ := (List.zipWith (fun ai bi => ai * bi) a b).sum

/-- `predict` (lines 41-43) on one sample:
`z = np.dot(x, self.w) + self.b; np.where(z >= 0, 1, -1)`. -/
def predictOne (w : List ℚ) (b : ℚ) (xi : List ℚ) : ℚ :=
  if 0 ≤ dot xi w + b then 1 else -1

/-- `predict` on an `(n, p)` batch: one `±1` per row. -/
def predictBatch (w : List ℚ) (b : ℚ) (x : List (List ℚ)) : List ℚ :=
  x.map (predictOne w b)

/-- `predict` as a method call: reads only `self.w` and `self.b`,
mutates nothing. -/
def Perceptron.predictM (p : Perceptron) (x : List (List ℚ)) :
    Perceptron × List ℚ :=
  (p, predictBatch p.w p.b x)

/-- The inner per-sample loop of `train` (lines 68-77): for each pair
`(x[i], y[i])` predict, form `error = y[i] - y_pred` (written out in place
of the source's local binding), and if it is nonzero update
`w += lr * error * x[i]` and `b += lr * error` immediately, counting
errors, otherwise count a correct sample. Returns `((w, b), errors, correct)`. -/
def epochGo (lr : ℚ) : List ℚ → ℚ → List (List ℚ × ℚ) → ℕ → ℕ →
    (List ℚ × ℚ) × ℕ × ℕ
  | w, b, [], errs, corr => ((w, b), errs, corr)
  | w, b, (xi, yi) :: rest, errs, corr =>
      if yi - predictOne w b xi ≠ 0 then
        epochGo lr
          (List.zipWith (fun wj xj => wj + lr * (yi - predictOne w b xi) * xj)
            w xi)
          (b + lr * (yi - predictOne w b xi)) rest (errs + 1) corr
      else
        epochGo lr w b rest errs (corr + 1)

/-- One full epoch over the sample set (`for i in range(len(x))`),
starting from zeroed error/correct counters. -/
def runEpoch (lr : ℚ) (w : List ℚ) (b : ℚ) (x : List (List ℚ))
    (y : List ℚ) : (List ℚ × ℚ) × ℕ × ℕ :=
  epochGo lr w b (x.zip y) 0 0

/-- The state after one completed epoch (lines 61-81): weights and bias
moved to the values the inner loop produced, `errors` appended to
`error_history`, and `correct / len(x)` appended to `accuracy_history`. -/
def afterEpoch (p : Perceptron) (x : List (List ℚ)) (y : List ℚ) :
    Perceptron :=
  { p with
    w := (runEpoch p.learning_rate p.w p.b x y).1.1,
    b := (runEpoch p.learning_rate p.w p.b x y).1.2,
    error_history :=
      p.error_history ++ [(runEpoch p.learning_rate p.w p.b x y).2.1],
    accuracy_history :=
      p.accuracy_history ++
        [((runEpoch p.learning_rate p.w p.b x y).2.2 : ℚ) / (x.length : ℚ)] }

/-- The epoch loop of `train` (lines 61-90).  Arguments: remaining epochs,
the 0-based index of the next epoch, the current `convergence_epoch`, and
the state.  When an epoch records zero errors the source sets
`convergence_epoch = epoch + 1` unconditionally but executes `break` only
under `if resultados:` (lines 86-90), which is mirrored exactly here. -/
def trainGo (x : List (List ℚ)) (y : List ℚ) (res : Bool) :
    ℕ → ℕ → ℕ → Perceptron → Perceptron × ℕ
  | 0, _, conv, p => (p, conv)
  | Nat.succ rem, epoch, conv, p =>
      if (runEpoch p.learning_rate p.w p.b x y).2.1 = 0 then
        if res then (afterEpoch p x y, epoch + 1)
        else trainGo x y res rem (epoch + 1) (epoch + 1) (afterEpoch p x y)
      else trainGo x y res rem (epoch + 1) conv (afterEpoch p x y)

/-- `train` (lines 45-95): stores `(x, y)` into `training_data`, starts
with `convergence_epoch = epochs`, runs the epoch loop, and returns the
final state together with `convergence_epoch`. -/
def train (p : Perceptron) (x : List (List ℚ)) (y : List ℚ) (epochs : ℕ)
    (res : Bool) : Perceptron × ℕ :=
  trainGo x y res epochs 0 epochs { p with training_data := some (x, y) }

/-- `np.min` over a nonempty rational list (the `[]` case is never reached
under the nonemptiness hypotheses used below; NumPy raises on empty input). -/
def minQ : List ℚ → ℚ
  | [] => 0
  | a :: t => t.foldl min a

/-- `np.max` over a nonempty rational list. -/
def maxQ : List ℚ → ℚ
  | [] => 0
  | a :: t => t.foldl max a

/-- Squared Euclidean norm of a vector, `np.linalg.norm(v) ** 2`. -/
def normSq (v : List ℚ) : ℚ := dot v v

/-- `margins = y * (x @ w).flatten()` (line 19): entry `i` is
`y[i] * (x[i] · w)`. -/
def margins (x : List (List ℚ)) (y w : List ℚ) : List ℚ :=
  List.zipWith (fun yi xi => yi * dot xi w) y x

/-- The numbers `evaluar_cota` computes and prints (lines 15-33).
`R2` stands for `R ** 2` (see the header note), `cumple` for the printed
answer to `steps <= bound`. -/
structure CotaResult where
  R2 : ℚ
  rho : ℚ
  nsq_w : ℚ
  bound : NFloat
  cumple : Bool
  deriving DecidableEq

/-- `evaluar_cota(x, y, w, steps)` (lines 15-33): `R` is the maximum row
norm of `x`, `ρ` the minimum absolute functional margin, `||w||²` the
squared norm of `w`, `bound = R²/ρ² * ||w||²` evaluated with NumPy float
semantics (so `ρ = 0` silently yields a non-finite bound, never an error),
and the function reports whether `steps <= bound`. -/
def evaluarCota (x : List (List ℚ)) (y w : List ℚ) (steps : ℚ) :
    CotaResult :=
  let R2 := maxQ (x.map normSq)
  let rho := minQ ((margins x y w).map (fun m => |m|))
  let nsq := normSq w
  let bound := NFloat.mul (NFloat.div (NFloat.fin R2) (NFloat.fin (rho ^ 2)))
    (NFloat.fin nsq)
  { R2 := R2, rho := rho, nsq_w := nsq, bound := bound,
    cumple := NFloat.leQ steps bound }

/-- `evaluar_cota` as a method call: the body never reads or writes
`self`, so the state is returned unchanged. -/
def Perceptron.evaluarCotaM (p : Perceptron) (x : List (List ℚ))
    (y w : List ℚ) (steps : ℚ) : Perceptron × CotaResult :=
  (p, evaluarCota x y w steps)

/-! ### Helper lemmas -/

theorem predictOne_eq_or (w : List ℚ) (b : ℚ) (xi : List ℚ) :
    predictOne w b xi = 1 ∨ predictOne w b xi = -1 := by
  unfold predictOne
  split
  · exact Or.inl rfl
  · exact Or.inr rfl

theorem foldl_min_le_init (l : List ℚ) : ∀ a : ℚ, l.foldl min a ≤ a := by
  induction l with
  | nil => intro a; simp
  | cons c t ih =>
      intro a
      simp only [List.foldl_cons]
      exact le_trans (ih (min a c)) (min_le_left a c)

theorem foldl_min_le_mem (l : List ℚ) :
    ∀ a x : ℚ, x ∈ l → l.foldl min a ≤ x := by
  induction l with
  | nil => intro a x hx; simp at hx
  | cons c t ih =>
      intro a x hx
      simp only [List.foldl_cons]
      rcases List.mem_cons.mp hx with h | h
      · rw [h]
        exact le_trans (foldl_min_le_init t (min a c)) (min_le_right a c)
      · exact ih (min a c) x h

theorem foldl_min_cases (l : List ℚ) :
    ∀ a : ℚ, l.foldl min a = a ∨ l.foldl min a ∈ l := by
  induction l with
  | nil => intro a; exact Or.inl rfl
  | cons c t ih =>
      intro a
      simp only [List.foldl_cons]
      rcases ih (min a c) with h | h
      · rcases min_choice a c with h2 | h2
        · exact Or.inl (h.trans h2)
        · exact Or.inr (by rw [h, h2]; exact List.mem_cons_self c t)
      · exact Or.inr (List.mem_cons_of_mem c h)

theorem minQ_mem (l : List ℚ) (h : l ≠ []) : minQ l ∈ l := by
  cases l with
  | nil => cases h rfl
  | cons a t =>
      simp only [minQ]
      rcases foldl_min_cases t a with h2 | h2
      · rw [h2]; exact List.mem_cons_self a t
      · exact List.mem_cons_of_mem a h2

theorem minQ_le (l : List ℚ) (x : ℚ) (hx : x ∈ l) : minQ l ≤ x := by
  cases l with
  | nil => simp at hx
  | cons a t =>
      simp only [minQ]
      rcases List.mem_cons.mp hx with h | h
      · rw [h]; exact foldl_min_le_init t a
      · exact foldl_min_le_mem t a x h

theorem foldl_max_init_le (l : List ℚ) : ∀ a : ℚ, a ≤ l.foldl max a := by
  induction l with
  | nil => intro a; simp
  | cons c t ih =>
      intro a
      simp only [List.foldl_cons]
      exact le_trans (le_max_left a c) (ih (max a c))

theorem foldl_max_mem_le (l : List ℚ) :
    ∀ a x : ℚ, x ∈ l → x ≤ l.foldl max a := by
  induction l with
  | nil => intro a x hx; simp at hx
  | cons c t ih =>
      intro a x hx
      simp only [List.foldl_cons]
      rcases List.mem_cons.mp hx with h | h
      · rw [h]
        exact le_trans (le_max_right a c) (foldl_max_init_le t (max a c))
      · exact ih (max a c) x h

theorem foldl_max_cases (l : List ℚ) :
    ∀ a : ℚ, l.foldl max a = a ∨ l.foldl max a ∈ l := by
  induction l with
  | nil => intro a; exact Or.inl rfl
  | cons c t ih =>
      intro a
      simp only [List.foldl_cons]
      rcases ih (max a c) with h | h
      · rcases max_choice a c with h2 | h2
        · exact Or.inl (h.trans h2)
        · exact Or.inr (by rw [h, h2]; exact List.mem_cons_self c t)
      · exact Or.inr (List.mem_cons_of_mem c h)

theorem maxQ_mem (l : List ℚ) (h : l ≠ []) : maxQ l ∈ l := by
  cases l with
  | nil => cases h rfl
  | cons a t =>
      simp only [maxQ]
      rcases foldl_max_cases t a with h2 | h2
      · rw [h2]; exact List.mem_cons_self a t
      · exact List.mem_cons_of_mem a h2

theorem maxQ_ge (l : List ℚ) (x : ℚ) (hx : x ∈ l) : x ≤ maxQ l := by
  cases l with
  | nil => simp at hx
  | cons a t =>
      simp only [maxQ]
      rcases List.mem_cons.mp hx with h | h
      · rw [h]; exact foldl_max_init_le t a
      · exact foldl_max_mem_le t a x h

theorem epochGo_counts (lr : ℚ) (l : List (List ℚ × ℚ)) :
    ∀ (w : List ℚ) (b : ℚ) (errs corr : ℕ),
      (epochGo lr w b l errs corr).2.1 + (epochGo lr w b l errs corr).2.2 =
        errs + corr + l.length := by
  induction l with
  | nil => intro w b errs corr; simp [epochGo]
  | cons s rest ih =>
      intro w b errs corr
      obtain ⟨xi, yi⟩ := s
      rw [epochGo]
      by_cases h : yi - predictOne w b xi = 0
      · rw [if_neg (by simpa using h)]
        rw [ih]
        simp only [List.length_cons]
        omega
      · rw [if_pos h]
        rw [ih]
        simp only [List.length_cons]
        omega

theorem epochGo_errs_le (lr : ℚ) (l : List (List ℚ × ℚ)) :
    ∀ (w : List ℚ) (b : ℚ) (errs corr : ℕ),
      errs ≤ (epochGo lr w b l errs corr).2.1 := by
  induction l with
  | nil => intro w b errs corr; simp [epochGo]
  | cons s rest ih =>
      intro w b errs corr
      obtain ⟨xi, yi⟩ := s
      rw [epochGo]
      by_cases h : yi - predictOne w b xi = 0
      · rw [if_neg (by simpa using h)]
        exact ih w b errs (corr + 1)
      · rw [if_pos h]
        exact le_trans (Nat.le_succ errs) (ih _ _ (errs + 1) corr)

theorem epochGo_no_errors (lr : ℚ) (l : List (List ℚ × ℚ)) :
    ∀ (w : List ℚ) (b : ℚ) (errs corr : ℕ),
      (epochGo lr w b l errs corr).2.1 = errs →
      (epochGo lr w b l errs corr).1 = (w, b) ∧
        (epochGo lr w b l errs corr).2.2 = corr + l.length := by
  induction l with
  | nil => intro w b errs corr _; simp [epochGo]
  | cons s rest ih =>
      intro w b errs corr h0
      obtain ⟨xi, yi⟩ := s
      rw [epochGo] at h0 ⊢
      by_cases h : yi - predictOne w b xi = 0
      · rw [if_neg (by simpa using h)] at h0 ⊢
        rcases ih w b errs (corr + 1) h0 with ⟨h1, h2⟩
        refine ⟨h1, ?_⟩
        rw [h2]
        simp only [List.length_cons]
        omega
      · rw [if_pos h] at h0
        have := epochGo_errs_le lr rest
          (List.zipWith (fun wj xj => wj + lr * (yi - predictOne w b xi) * xj)
            w xi)
          (b + lr * (yi - predictOne w b xi)) (errs + 1) corr
        omega

theorem afterEpoch_eh (p : Perceptron) (x : List (List ℚ)) (y : List ℚ) :
    (afterEpoch p x y).error_history =
      p.error_history ++ [(runEpoch p.learning_rate p.w p.b x y).2.1] := rfl

theorem afterEpoch_ah (p : Perceptron) (x : List (List ℚ)) (y : List ℚ) :
    (afterEpoch p x y).accuracy_history =
      p.accuracy_history ++
        [((runEpoch p.learning_rate p.w p.b x y).2.2 : ℚ) /
          (x.length : ℚ)] := rfl

theorem afterEpoch_lr (p : Perceptron) (x : List (List ℚ)) (y : List ℚ) :
    (afterEpoch p x y).learning_rate = p.learning_rate := rfl

theorem afterEpoch_td (p : Perceptron) (x : List (List ℚ)) (y : List ℚ) :
    (afterEpoch p x y).training_data = p.training_data := rfl

theorem runEpoch_counts (lr : ℚ) (w : List ℚ) (b : ℚ) (x : List (List ℚ))
    (y : List ℚ) (hxy : y.length = x.length) :
    (runEpoch lr w b x y).2.1 + (runEpoch lr w b x y).2.2 = x.length := by
  have h := epochGo_counts lr (x.zip y) w b 0 0
  simpa [runEpoch, List.length_zip, hxy] using h

theorem runEpoch_accuracy (lr : ℚ) (w : List ℚ) (b : ℚ)
    (x : List (List ℚ)) (y : List ℚ) (hxy : y.length = x.length) :
    ((runEpoch lr w b x y).2.2 : ℚ) / (x.length : ℚ) =
      ((x.length : ℚ) - ((runEpoch lr w b x y).2.1 : ℚ)) / (x.length : ℚ) := by
  have hEC := runEpoch_counts lr w b x y hxy
  have hEle : (runEpoch lr w b x y).2.1 ≤ x.length := by omega
  have hcast : ((runEpoch lr w b x y).2.2 : ℚ) =
      (x.length : ℚ) - ((runEpoch lr w b x y).2.1 : ℚ) := by
    have hC : (runEpoch lr w b x y).2.2 = x.length - (runEpoch lr w b x y).2.1 := by
      omega
    rw [hC, Nat.cast_sub hEle]
  rw [hcast]

theorem trainGo_hist (x : List (List ℚ)) (y : List ℚ) (res : Bool)
    (hxy : y.length = x.length) :
    ∀ (rem epoch conv : ℕ) (p : Perceptron), ∃ es : List ℕ, ∃ as : List ℚ,
      (trainGo x y res rem epoch conv p).1.error_history =
        p.error_history ++ es ∧
      (trainGo x y res rem epoch conv p).1.accuracy_history =
        p.accuracy_history ++ as ∧
      es.length = as.length ∧
      es.length ≤ rem ∧
      (res = false → es.length = rem) ∧
      (1 ≤ rem → 1 ≤ es.length) ∧
      (∀ i : ℕ, as[i]? = (es[i]?).map
        (fun ek : ℕ => ((x.length : ℚ) - (ek : ℚ)) / (x.length : ℚ))) ∧
      (trainGo x y res rem epoch conv p).1.learning_rate =
        p.learning_rate ∧
      (trainGo x y res rem epoch conv p).1.training_data =
        p.training_data := by
  intro rem
  induction rem with
  | zero =>
      intro epoch conv p
      refine ⟨[], [], ?_, ?_, rfl, le_refl 0, fun _ => rfl, ?_, ?_, rfl, rfl⟩
      · simp [trainGo]
      · simp [trainGo]
      · intro h; omega
      · intro i; simp
  | succ rem ih =>
      intro epoch conv p
      have hacc := runEpoch_accuracy p.learning_rate p.w p.b x y hxy
      by_cases h0 : (runEpoch p.learning_rate p.w p.b x y).2.1 = 0
      · cases res with
        | true =>
            refine ⟨[(runEpoch p.learning_rate p.w p.b x y).2.1],
              [((runEpoch p.learning_rate p.w p.b x y).2.2 : ℚ) /
                (x.length : ℚ)], ?_, ?_, rfl, ?_, ?_, ?_, ?_, ?_, ?_⟩
            · rw [trainGo, if_pos h0, if_pos rfl, afterEpoch_eh]
            · rw [trainGo, if_pos h0, if_pos rfl, afterEpoch_ah]
            · simp
            · intro h; cases h
            · intro _; simp
            · intro i
              match i with
              | 0 => simp [hacc]
              | Nat.succ j => simp
            · rw [trainGo, if_pos h0, if_pos rfl, afterEpoch_lr]
            · rw [trainGo, if_pos h0, if_pos rfl, afterEpoch_td]
        | false =>
            obtain ⟨es, as, h1, h2, h3, h4, h5, h6, h7, h8, h9⟩ :=
              ih (epoch + 1) (epoch + 1) (afterEpoch p x y)
            refine ⟨(runEpoch p.learning_rate p.w p.b x y).2.1 :: es,
              (((runEpoch p.learning_rate p.w p.b x y).2.2 : ℚ) /
                (x.length : ℚ)) :: as, ?_, ?_, ?_, ?_, ?_, ?_, ?_, ?_, ?_⟩
            · rw [trainGo, if_pos h0, if_neg (by simp), h1, afterEpoch_eh]
              simp
            · rw [trainGo, if_pos h0, if_neg (by simp), h2, afterEpoch_ah]
              simp
            · simp [h3]
            · simp only [List.length_cons]; omega
            · intro hres
              simp only [List.length_cons, h5 hres]
            · intro _; simp only [List.length_cons]; omega
            · intro i
              match i with
              | 0 => simp [hacc]
              | Nat.succ j => simpa using h7 j
            · rw [trainGo, if_pos h0, if_neg (by simp), h8, afterEpoch_lr]
            · rw [trainGo, if_pos h0, if_neg (by simp), h9, afterEpoch_td]
      · obtain ⟨es, as, h1, h2, h3, h4, h5, h6, h7, h8, h9⟩ :=
          ih (epoch + 1) conv (afterEpoch p x y)
        refine ⟨(runEpoch p.learning_rate p.w p.b x y).2.1 :: es,
          (((runEpoch p.learning_rate p.w p.b x y).2.2 : ℚ) /
            (x.length : ℚ)) :: as, ?_, ?_, ?_, ?_, ?_, ?_, ?_, ?_, ?_⟩
        · rw [trainGo, if_neg h0, h1, afterEpoch_eh]
          simp
        · rw [trainGo, if_neg h0, h2, afterEpoch_ah]
          simp
        · simp [h3]
        · simp only [List.length_cons]; omega
        · intro hres
          simp only [List.length_cons, h5 hres]
        · intro _; simp only [List.length_cons]; omega
        · intro i
          match i with
          | 0 => simp [hacc]
          | Nat.succ j => simpa using h7 j
        · rw [trainGo, if_neg h0, h8, afterEpoch_lr]
        · rw [trainGo, if_neg h0, h9, afterEpoch_td]

theorem zipWith_mem_exists {α β γ : Type} (f : α → β → γ) :
    ∀ (l1 : List α) (l2 : List β) (z : γ), z ∈ List.zipWith f l1 l2 →
      ∃ (i : ℕ) (h1 : i < l1.length) (h2 : i < l2.length),
        z = f (l1.get ⟨i, h1⟩) (l2.get ⟨i, h2⟩) := by
  intro l1
  induction l1 with
  | nil => intro l2 z hz; simp at hz
  | cons a t ih =>
      intro l2 z hz
      cases l2 with
      | nil => simp at hz
      | cons b s =>
          rw [List.zipWith_cons_cons] at hz
          rcases List.mem_cons.mp hz with h | h
          · exact ⟨0, by simp, by simp, by simpa using h⟩
          · obtain ⟨i, h1, h2, h3⟩ := ih s z h
            exact ⟨i + 1, by simpa using Nat.succ_lt_succ h1,
              by simpa using Nat.succ_lt_succ h2, by simpa using h3⟩

theorem zipWith_get_mem {α β γ : Type} (f : α → β → γ) :
    ∀ (l1 : List α) (l2 : List β) (i : ℕ) (h1 : i < l1.length)
      (h2 : i < l2.length),
      f (l1.get ⟨i, h1⟩) (l2.get ⟨i, h2⟩) ∈ List.zipWith f l1 l2 := by
  intro l1
  induction l1 with
  | nil => intro l2 i h1 h2; simp at h1
  | cons a t ih =>
      intro l2 i h1 h2
      cases l2 with
      | nil => simp at h2
      | cons b s =>
          match i with
          | 0 => simp [List.zipWith_cons_cons]
          | Nat.succ j =>
              have hmem := ih s j (by simpa using h1) (by simpa using h2)
              simp only [List.zipWith_cons_cons]
              exact List.mem_cons_of_mem _ (by simpa using hmem)

theorem set_hist_lr (p : Perceptron) (eh : List ℕ) (ah : List ℚ) :
    ({ p with error_history := eh, accuracy_history := ah } :
      Perceptron).learning_rate = p.learning_rate := rfl

theorem set_hist_w (p : Perceptron) (eh : List ℕ) (ah : List ℚ) :
    ({ p with error_history := eh, accuracy_history := ah } :
      Perceptron).w = p.w := rfl

theorem set_hist_b (p : Perceptron) (eh : List ℕ) (ah : List ℚ) :
    ({ p with error_history := eh, accuracy_history := ah } :
      Perceptron).b = p.b := rfl

theorem afterEpoch_set_hist (p : Perceptron) (eh : List ℕ) (ah : List ℚ)
    (x : List (List ℚ)) (y : List ℚ) :
    afterEpoch { p with error_history := eh, accuracy_history := ah } x y =
      { p with
        w := (runEpoch p.learning_rate p.w p.b x y).1.1,
        b := (runEpoch p.learning_rate p.w p.b x y).1.2,
        error_history :=
          eh ++ [(runEpoch p.learning_rate p.w p.b x y).2.1],
        accuracy_history :=
          ah ++ [((runEpoch p.learning_rate p.w p.b x y).2.2 : ℚ) /
            (x.length : ℚ)] } := rfl

theorem trainGo_converged (x : List (List ℚ)) (y : List ℚ) (p : Perceptron)
    (hxy : y.length = x.length) (hx : x ≠ [])
    (h0 : (runEpoch p.learning_rate p.w p.b x y).2.1 = 0) :
    ∀ (rem epoch conv : ℕ) (eh : List ℕ) (ah : List ℚ),
      trainGo x y false rem epoch conv
          { p with error_history := eh, accuracy_history := ah } =
        ({ p with error_history := eh ++ List.replicate rem 0,
                  accuracy_history := ah ++ List.replicate rem 1 },
          if rem = 0 then conv else epoch + rem) := by
  have hwb := epochGo_no_errors p.learning_rate (x.zip y) p.w p.b 0 0
    (by simpa [runEpoch] using h0)
  have hw1 : (runEpoch p.learning_rate p.w p.b x y).1.1 = p.w := by
    have := hwb.1
    simp only [runEpoch]
    rw [this]
  have hb1 : (runEpoch p.learning_rate p.w p.b x y).1.2 = p.b := by
    have := hwb.1
    simp only [runEpoch]
    rw [this]
  have hC : (runEpoch p.learning_rate p.w p.b x y).2.2 = x.length := by
    have := hwb.2
    simpa [runEpoch, List.length_zip, hxy] using this
  have hlen0 : (x.length : ℚ) ≠ 0 := by
    simpa using fun h => hx (List.length_eq_zero.mp h)
  have hacc1 : ((runEpoch p.learning_rate p.w p.b x y).2.2 : ℚ) /
      (x.length : ℚ) = 1 := by
    rw [hC]
    exact div_self hlen0
  intro rem
  induction rem with
  | zero => intro epoch conv eh ah; simp [trainGo]
  | succ rem ih =>
      intro epoch conv eh ah
      simp only [trainGo, set_hist_lr, set_hist_w, set_hist_b]
      rw [if_pos h0, if_neg (by simp)]
      rw [afterEpoch_set_hist, h0, hw1, hb1, hacc1]
      have hstep :
          trainGo x y false rem (epoch + 1) (epoch + 1)
              { p with
                w := p.w, b := p.b,
                error_history := eh ++ [0],
                accuracy_history := ah ++ [1] } =
            trainGo x y false rem (epoch + 1) (epoch + 1)
              { p with
                error_history := eh ++ [0],
                accuracy_history := ah ++ [1] } := rfl
      rw [hstep, ih (epoch + 1) (epoch + 1) (eh ++ [0]) (ah ++ [1])]
      rw [Prod.mk.injEq]
      constructor
      · simp [List.append_assoc, List.replicate_succ]
      · split
        · rename_i hr
          rw [hr]
          simp
        · rename_i hr
          rw [if_neg (by omega)]
          omega

/-! ### Claims -/

/-- Claim C1: the claim states that the training loop stops as soon as one
full epoch records zero errors and returns that epoch's 1-indexed number,
regardless of the `resultados` flag.  The code executes the `break` only
under `if resultados:`.  Evidence at a concrete input: a model that is
already correct on its single training sample (so epoch 1 records zero
errors) trained for 3 epochs with `resultados = false` runs all 3 epochs,
records 3 history entries and returns 3, while the same call with
`resultados = true` stops after 1 epoch and returns 1. -/
theorem C1_break_only_under_flag :
    (train ⟨[1], 0, 1/100, [], [], none⟩ [[1]] [1] 3 false).2 = 3 ∧
    (train ⟨[1], 0, 1/100, [], [], none⟩ [[1]] [1] 3
      false).1.error_history = [0, 0, 0] ∧
    (train ⟨[1], 0, 1/100, [], [], none⟩ [[1]] [1] 3 true).2 = 1 ∧
    (train ⟨[1], 0, 1/100, [], [], none⟩ [[1]] [1] 3
      true).1.error_history = [0] := by
  norm_num [train, trainGo, afterEpoch, runEpoch, epochGo, predictOne, dot]

/-- Claim C2: the claim states that `evaluar_cota` fails with a defined
error when some sample has zero functional margin (`ρ = 0`).  The code has
no error path: at the concrete input `x = [[1, 0]]`, `y = [1]`,
`w = [0, 1]` (the sample lies exactly on the decision boundary, `ρ = 0`)
it completes normally, silently produces an infinite bound, and even
reports the step bound as satisfied (`steps <= inf` is true). -/
theorem C2_degenerate_margin_is_silent :
    (evaluarCota [[1, 0]] [1] [0, 1] 5).rho = 0 ∧
    (evaluarCota [[1, 0]] [1] [0, 1] 5).bound = NFloat.inf ∧
    (evaluarCota [[1, 0]] [1] [0, 1] 5).cumple = true := by
  norm_num [evaluarCota, minQ, maxQ, margins, normSq, dot, NFloat.div,
    NFloat.mul, NFloat.leQ]

/-- Claim C3: inside the training loop, for a label `y[i] ∈ {-1, +1}` the
error signal `e = y[i] - predict(x[i])` lies in `{-2, 0, +2}`; when
`e ≠ 0` the inner loop continues on the remaining samples with `w` and `b`
already replaced by `w + η·e·x[i]` (componentwise) and `b + η·e`; in
particular for a misclassified sample with `y = 1`, `ŷ = -1` the
continuation uses `w + η·2·x[i]` and `b + η·2`. -/
theorem C3_error_signal_and_update (lr : ℚ) (w : List ℚ) (b : ℚ)
    (xi : List ℚ) (yi : ℚ) (rest : List (List ℚ × ℚ)) (errs corr : ℕ)
    (hy : yi = -1 ∨ yi = 1) :
    (yi - predictOne w b xi = -2 ∨ yi - predictOne w b xi = 0 ∨
      yi - predictOne w b xi = 2) ∧
    (yi - predictOne w b xi ≠ 0 →
      epochGo lr w b ((xi, yi) :: rest) errs corr =
        epochGo lr
          (List.zipWith
            (fun wj xj => wj + lr * (yi - predictOne w b xi) * xj) w xi)
          (b + lr * (yi - predictOne w b xi)) rest (errs + 1) corr) ∧
    (yi = 1 → predictOne w b xi = -1 →
      epochGo lr w b ((xi, yi) :: rest) errs corr =
        epochGo lr (List.zipWith (fun wj xj => wj + lr * 2 * xj) w xi)
          (b + lr * 2) rest (errs + 1) corr) := by
  refine ⟨?_, ?_, ?_⟩
  · rcases predictOne_eq_or w b xi with h | h <;> rcases hy with h2 | h2 <;>
      rw [h, h2] <;> norm_num
  · intro hne
    rw [epochGo, if_pos hne]
  · intro hy1 hp
    rw [epochGo, if_pos (by rw [hy1, hp]; norm_num)]
    simp only [hy1, hp]
    norm_num

/-- Witness for C3 at `η = 1/10`, `w = [-1]`, `b = 0`, `x[0] = [1]`,
`y[0] = 1`: the sample is misclassified (`ŷ = -1`) and the loop continues
with `w + η·2·x[0]` and `b + η·2`. -/
theorem C3_witness :
    ((1 : ℚ) = -1 ∨ (1 : ℚ) = 1) ∧
    epochGo (1/10) [-1] 0 [([1], 1)] 0 0 =
      epochGo (1/10)
        (List.zipWith (fun wj xj => wj + (1/10) * 2 * xj) [-1] [1])
        (0 + (1/10) * 2) [] (0 + 1) 0 :=
  ⟨Or.inr rfl,
    (C3_error_signal_and_update (1/10) [-1] 0 [1] 1 [] 0 0
      (Or.inr rfl)).2.2 rfl (by norm_num [predictOne, dot])⟩

/-- Claim C10: calling `train` with `epochs = 0` returns 0, appends
nothing to either history, leaves `w` and `b` unchanged, and still
overwrites `training_data` with the supplied pair. -/
theorem C10_zero_epochs (p : Perceptron) (x : List (List ℚ)) (y : List ℚ)
    (res : Bool) :
    (train p x y 0 res).2 = 0 ∧
    (train p x y 0 res).1.error_history = p.error_history ∧
    (train p x y 0 res).1.accuracy_history = p.accuracy_history ∧
    (train p x y 0 res).1.w = p.w ∧
    (train p x y 0 res).1.b = p.b ∧
    (train p x y 0 res).1.training_data = some (x, y) :=
  ⟨rfl, rfl, rfl, rfl, rfl, rfl⟩

/-- Claim C4: after a call to `train` on a fresh instance (empty
histories) with a nonempty sample set of size `n` and matching labels,
every recorded epoch index `i` satisfies
`accuracy_history[i] = (n - error_history[i]) / n` exactly, and the two
histories have equal length. -/
theorem C4_accuracy_error_complement (p : Perceptron)
    (x : List (List ℚ)) (y : List ℚ) (epochs : ℕ) (res : Bool)
    (hxy : y.length = x.length) (_hx : x ≠ [])
    (he : p.error_history = []) (ha : p.accuracy_history = []) :
    (train p x y epochs res).1.error_history.length =
      (train p x y epochs res).1.accuracy_history.length ∧
    ∀ i : ℕ,
      (train p x y epochs res).1.accuracy_history[i]? =
        ((train p x y epochs res).1.error_history[i]?).map
          (fun ek : ℕ => ((x.length : ℚ) - (ek : ℚ)) / (x.length : ℚ)) := by
  obtain ⟨es, as, h1, h2, h3, h4, h5, h6, h7, h8, h9⟩ :=
    trainGo_hist x y res hxy epochs 0 epochs
      { p with training_data := some (x, y) }
  have ht : train p x y epochs res =
      trainGo x y res epochs 0 epochs
        { p with training_data := some (x, y) } := rfl
  constructor
  · rw [ht, h1, h2]
    simp only [he, ha, List.nil_append]
    exact h3
  · intro i
    rw [ht, h1, h2]
    simp only [he, ha, List.nil_append]
    exact h7 i

/-- Witness for C4 on the fresh instance `w = [1]`, `b = 0`, `η = 1/100`
trained for one epoch on `x = [[1]]`, `y = [1]`. -/
theorem C4_witness :
    (([1] : List ℚ).length = ([[1]] : List (List ℚ)).length ∧
      ([[1]] : List (List ℚ)) ≠ []) ∧
    (train ⟨[1], 0, 1/100, [], [], none⟩ [[1]] [1] 1
        false).1.accuracy_history[0]? =
      ((train ⟨[1], 0, 1/100, [], [], none⟩ [[1]] [1] 1
          false).1.error_history[0]?).map
        (fun ek : ℕ => ((([[1]] : List (List ℚ)).length : ℚ) - (ek : ℚ)) /
          (([[1]] : List (List ℚ)).length : ℚ)) :=
  ⟨⟨rfl, by simp⟩,
    (C4_accuracy_error_complement ⟨[1], 0, 1/100, [], [], none⟩ [[1]] [1] 1
      false rfl (by simp) rfl rfl).2 0⟩

/-- Claim C5: `predict` computes `z = x·w + b` and returns the sign with
the tie convention `+1` when `z ≥ 0` and `-1` when `z < 0`; on a batch it
acts row-wise; every output element lies in `{-1, +1}`. -/
theorem C5_sign_convention (w : List ℚ) (b : ℚ) (x : List (List ℚ)) :
    (∀ xi : List ℚ,
      (0 ≤ dot xi w + b → predictOne w b xi = 1) ∧
      (dot xi w + b < 0 → predictOne w b xi = -1)) ∧
    (∀ i : ℕ, (predictBatch w b x)[i]? = (x[i]?).map (predictOne w b)) ∧
    (∀ o ∈ predictBatch w b x, o = 1 ∨ o = -1) := by
  refine ⟨?_, ?_, ?_⟩
  · intro xi
    constructor
    · intro h
      unfold predictOne
      rw [if_pos h]
    · intro h
      unfold predictOne
      rw [if_neg (not_le.mpr h)]
  · intro i
    simp only [predictBatch]
    exact List.getElem?_map (predictOne w b) x i
  · intro o ho
    simp only [predictBatch] at ho
    obtain ⟨xi, _, hx2⟩ := List.mem_map.mp ho
    rw [← hx2]
    exact predictOne_eq_or w b xi

/-- Witness for C5: concrete single-sample predictions on `w = [1]`,
`b = 0`, including the `z = 0` tie. -/
theorem C5_witness :
    predictOne [(1 : ℚ)] 0 [2] = 1 ∧ predictOne [(1 : ℚ)] 0 [0] = 1 ∧
      predictOne [(1 : ℚ)] 0 [-3] = -1 :=
  ⟨((C5_sign_convention [1] 0 []).1 [2]).1 (by norm_num [dot]),
    ((C5_sign_convention [1] 0 []).1 [0]).1 (by norm_num [dot]),
    ((C5_sign_convention [1] 0 []).1 [-3]).2 (by norm_num [dot])⟩

/-- Claim C8: for fixed weights, `predict` is pure and deterministic: its
output depends only on `w` and `b` (two states agreeing on `w`, `b` give
identical outputs, hence two calls on identical input give identical
output), and the call leaves `w`, `b`, `learning_rate`, both histories and
`training_data` unchanged. -/
theorem C8_predict_pure (p q : Perceptron) (x : List (List ℚ))
    (hw : p.w = q.w) (hb : p.b = q.b) :
    (p.predictM x).1 = p ∧
    (p.predictM x).2 = (q.predictM x).2 ∧
    (((p.predictM x).1.predictM x)).2 = (p.predictM x).2 ∧
    (p.predictM x).1.w = p.w ∧
    (p.predictM x).1.b = p.b ∧
    (p.predictM x).1.learning_rate = p.learning_rate ∧
    (p.predictM x).1.error_history = p.error_history ∧
    (p.predictM x).1.accuracy_history = p.accuracy_history ∧
    (p.predictM x).1.training_data = p.training_data := by
  refine ⟨rfl, ?_, rfl, rfl, rfl, rfl, rfl, rfl, rfl⟩
  show predictBatch p.w p.b x = predictBatch q.w q.b x
  rw [hw, hb]

/-- Witness for C8: two states sharing `w = [1]`, `b = 0` but differing in
learning rate and histories produce the same predictions. -/
theorem C8_witness :
    ((⟨[1], 0, 1/100, [], [], none⟩ : Perceptron).w =
      (⟨[1], 0, 2, [3], [1/2], none⟩ : Perceptron).w) ∧
    ((⟨[1], 0, 1/100, [], [], none⟩ : Perceptron).b =
      (⟨[1], 0, 2, [3], [1/2], none⟩ : Perceptron).b) ∧
    ((⟨[1], 0, 1/100, [], [], none⟩ : Perceptron).predictM [[5]]).2 =
      ((⟨[1], 0, 2, [3], [1/2], none⟩ : Perceptron).predictM [[5]]).2 :=
  ⟨rfl, rfl,
    (C8_predict_pure ⟨[1], 0, 1/100, [], [], none⟩
      ⟨[1], 0, 2, [3], [1/2], none⟩ [[5]] rfl rfl).2.1⟩

/-- Claim C9: within one call to `train`, an epoch that records zero
errors applies no update (the inner loop returns `w` and `b` unchanged),
and consequently — with `resultados = false`, where the loop does not
break — every remaining epoch also records zero errors, appending `0` to
`error_history` and `1` to `accuracy_history`. -/
theorem C9_zero_error_epoch_is_absorbing (p : Perceptron)
    (x : List (List ℚ)) (y : List ℚ) (hxy : y.length = x.length)
    (hx : x ≠ [])
    (h0 : (runEpoch p.learning_rate p.w p.b x y).2.1 = 0) :
    (runEpoch p.learning_rate p.w p.b x y).1 = (p.w, p.b) ∧
    ∀ rem epoch conv : ℕ,
      trainGo x y false rem epoch conv p =
        ({ p with
            error_history := p.error_history ++ List.replicate rem 0,
            accuracy_history :=
              p.accuracy_history ++ List.replicate rem 1 },
          if rem = 0 then conv else epoch + rem) := by
  constructor
  · have hwb := epochGo_no_errors p.learning_rate (x.zip y) p.w p.b 0 0
      (by simpa [runEpoch] using h0)
    simpa [runEpoch] using hwb.1
  · intro rem epoch conv
    exact trainGo_converged x y p hxy hx h0 rem epoch conv
      p.error_history p.accuracy_history

/-- Witness for C9 on `w = [1]`, `b = 0`, `η = 1/100`, `x = [[1]]`,
`y = [1]`: the single epoch records zero errors and leaves the state
unchanged. -/
theorem C9_witness :
    (runEpoch (1/100) [1] 0 [[1]] [1]).2.1 = 0 ∧
    (runEpoch (1/100) [1] 0 [[1]] [1]).1 = ([1], 0) :=
  ⟨by norm_num [runEpoch, epochGo, predictOne, dot],
    (C9_zero_error_epoch_is_absorbing ⟨[1], 0, 1/100, [], [], none⟩
      [[1]] [1] rfl (by simp)
      (by norm_num [runEpoch, epochGo, predictOne, dot])).1⟩

/-- Claim C6: with a nonempty sample set, matching labels and `ρ ≠ 0`,
`evaluar_cota` computes `R` as the maximum Euclidean row norm of `x`
(stated via squares: `R²` is the maximum squared norm), `ρ` as the minimum
absolute functional margin `min_i |y_i · (x_i · w)|`, `||w||²` as the
squared norm of `w`, the bound as the finite value `(R²/ρ²)·||w||²`, and
reports whether `steps ≤ bound`; as a method call it leaves the model
state untouched. -/
theorem C6_margin_bound_formula (p : Perceptron) (x : List (List ℚ))
    (y w : List ℚ) (steps : ℚ) (hx : x ≠ [])
    (hxy : y.length = x.length)
    (hrho : (evaluarCota x y w steps).rho ≠ 0) :
    ((∃ v ∈ x, (evaluarCota x y w steps).R2 = normSq v) ∧
      (∀ v ∈ x, normSq v ≤ (evaluarCota x y w steps).R2)) ∧
    ((∃ (i : ℕ) (h1 : i < y.length) (h2 : i < x.length),
        (evaluarCota x y w steps).rho =
          |y.get ⟨i, h1⟩ * dot (x.get ⟨i, h2⟩) w|) ∧
      (∀ (i : ℕ) (h1 : i < y.length) (h2 : i < x.length),
        (evaluarCota x y w steps).rho ≤
          |y.get ⟨i, h1⟩ * dot (x.get ⟨i, h2⟩) w|)) ∧
    (evaluarCota x y w steps).nsq_w = normSq w ∧
    (evaluarCota x y w steps).bound =
      NFloat.fin ((evaluarCota x y w steps).R2 /
        (evaluarCota x y w steps).rho ^ 2 * normSq w) ∧
    ((evaluarCota x y w steps).cumple = true ↔
      steps ≤ (evaluarCota x y w steps).R2 /
        (evaluarCota x y w steps).rho ^ 2 * normSq w) ∧
    (p.evaluarCotaM x y w steps).1 = p := by
  have hx2 : x.map normSq ≠ [] := by simpa using hx
  have hmlen : (margins x y w).length = x.length := by
    simp [margins, List.length_zipWith, hxy]
  have hm2 : (margins x y w).map (fun m => |m|) ≠ [] := by
    have hmne : margins x y w ≠ [] := by
      intro hcon
      rw [hcon] at hmlen
      exact hx (List.length_eq_zero.mp hmlen.symm)
    simpa using hmne
  have hrho2 : (minQ ((margins x y w).map (fun m => |m|))) ^ 2 ≠ 0 :=
    pow_ne_zero 2 hrho
  have hbraw :
      NFloat.mul
        (NFloat.div (NFloat.fin (maxQ (x.map normSq)))
          (NFloat.fin ((minQ ((margins x y w).map (fun m => |m|))) ^ 2)))
        (NFloat.fin (normSq w)) =
      NFloat.fin (maxQ (x.map normSq) /
        (minQ ((margins x y w).map (fun m => |m|))) ^ 2 * normSq w) := by
    rw [NFloat.div, if_neg hrho2, NFloat.mul]
  refine ⟨⟨?_, ?_⟩, ⟨?_, ?_⟩, rfl, ?_, ?_, rfl⟩
  · obtain ⟨v, hv, hveq⟩ := List.mem_map.mp (maxQ_mem _ hx2)
    exact ⟨v, hv, hveq.symm⟩
  · intro v hv
    exact maxQ_ge _ _ (List.mem_map_of_mem normSq hv)
  · obtain ⟨m, hm, hmeq⟩ := List.mem_map.mp (minQ_mem _ hm2)
    obtain ⟨i, h1, h2, h3⟩ :=
      zipWith_mem_exists (fun yi xi => yi * dot xi w) y x m hm
    refine ⟨i, h1, h2, ?_⟩
    show minQ ((margins x y w).map (fun m => |m|)) = _
    rw [← hmeq, h3]
  · intro i h1 h2
    have hmem := zipWith_get_mem (fun yi xi => yi * dot xi w) y x i h1 h2
    exact minQ_le _ _ (List.mem_map_of_mem (fun m => |m|) hmem)
  · exact hbraw
  · show NFloat.leQ steps
      (NFloat.mul
        (NFloat.div (NFloat.fin (maxQ (x.map normSq)))
          (NFloat.fin ((minQ ((margins x y w).map (fun m => |m|))) ^ 2)))
        (NFloat.fin (normSq w))) = true ↔ _
    rw [hbraw, NFloat.leQ]
    exact decide_eq_true_iff

/-- Witness for C6 at `x = [[3, 4]]`, `y = [1]`, `w = [1, 0]`,
`steps = 5`: here `R² = 25`, `ρ = 3`, `||w||² = 1` and the bound is the
finite value `25/9`. -/
theorem C6_witness :
    (([[3, 4]] : List (List ℚ)) ≠ [] ∧
      ([1] : List ℚ).length = ([[3, 4]] : List (List ℚ)).length ∧
      (evaluarCota [[3, 4]] [1] [1, 0] 5).rho ≠ 0) ∧
    (evaluarCota [[3, 4]] [1] [1, 0] 5).bound =
      NFloat.fin ((evaluarCota [[3, 4]] [1] [1, 0] 5).R2 /
        (evaluarCota [[3, 4]] [1] [1, 0] 5).rho ^ 2 * normSq [1, 0]) :=
  ⟨⟨by simp, rfl, by norm_num [evaluarCota, minQ, maxQ, margins, normSq, dot]⟩,
    (C6_margin_bound_formula ⟨[1], 0, 1/100, [], [], none⟩ [[3, 4]] [1]
      [1, 0] 5 (by simp) rfl
      (by norm_num [evaluarCota, minQ, maxQ, margins, normSq, dot])).2.2.2.1⟩

/-- Claim C7: `error_history` and `accuracy_history` are append-only
parallel sequences: a call to `train` extends each by the same number of
entries — one per completed epoch, at most `epochs` many, exactly `epochs`
many when `resultados = false`, at least one when `epochs ≥ 1` — never
clearing what was there, so equal lengths are preserved and a second call
appends to the histories left by the first call instead of restarting
them. -/
theorem C7_histories_append_only (p : Perceptron) (x : List (List ℚ))
    (y : List ℚ) (epochs : ℕ) (res : Bool) (hxy : y.length = x.length) :
    ∃ es : List ℕ, ∃ as : List ℚ,
      (train p x y epochs res).1.error_history =
        p.error_history ++ es ∧
      (train p x y epochs res).1.accuracy_history =
        p.accuracy_history ++ as ∧
      es.length = as.length ∧
      es.length ≤ epochs ∧
      (res = false → es.length = epochs) ∧
      (1 ≤ epochs → 1 ≤ es.length) ∧
      (p.error_history.length = p.accuracy_history.length →
        (train p x y epochs res).1.error_history.length =
          (train p x y epochs res).1.accuracy_history.length) ∧
      (∀ (x2 : List (List ℚ)) (y2 : List ℚ) (epochs2 : ℕ) (res2 : Bool),
        y2.length = x2.length →
        ∃ es2 : List ℕ, ∃ as2 : List ℚ,
          (train (train p x y epochs res).1 x2 y2 epochs2
              res2).1.error_history =
            (train p x y epochs res).1.error_history ++ es2 ∧
          (train (train p x y epochs res).1 x2 y2 epochs2
              res2).1.accuracy_history =
            (train p x y epochs res).1.accuracy_history ++ as2) := by
  obtain ⟨es, as, h1, h2, h3, h4, h5, h6, h7, h8, h9⟩ :=
    trainGo_hist x y res hxy epochs 0 epochs
      { p with training_data := some (x, y) }
  have ht : train p x y epochs res =
      trainGo x y res epochs 0 epochs
        { p with training_data := some (x, y) } := rfl
  refine ⟨es, as, ?_, ?_, h3, h4, h5, h6, ?_, ?_⟩
  · rw [ht]
    exact h1
  · rw [ht]
    exact h2
  · intro hlen
    rw [ht, h1, h2]
    simp only [List.length_append]
    show p.error_history.length + es.length =
      p.accuracy_history.length + as.length
    rw [hlen, h3]
  · intro x2 y2 epochs2 res2 hxy2
    obtain ⟨es2, as2, g1, g2, g3, g4, g5, g6, g7, g8, g9⟩ :=
      trainGo_hist x2 y2 res2 hxy2 epochs2 0 epochs2
        { (train p x y epochs res).1 with training_data := some (x2, y2) }
    have ht2 : train (train p x y epochs res).1 x2 y2 epochs2 res2 =
        trainGo x2 y2 res2 epochs2 0 epochs2
          { (train p x y epochs res).1 with
            training_data := some (x2, y2) } := rfl
    exact ⟨es2, as2, by rw [ht2]; exact g1, by rw [ht2]; exact g2⟩

/-- Witness for C7 on a fresh model trained twice (2 epochs then 1 epoch,
`resultados = false`) on `x = [[1]]`, `y = [1]`: concrete history lengths
after each call. -/
theorem C7_witness :
    (([1] : List ℚ).length = ([[1]] : List (List ℚ)).length) ∧
    (∃ es : List ℕ, ∃ as : List ℚ,
      (train ⟨[1], 0, 1/100, [], [], none⟩ [[1]] [1] 2
          false).1.error_history =
        (⟨[1], 0, 1/100, [], [], none⟩ : Perceptron).error_history ++ es ∧
      (train ⟨[1], 0, 1/100, [], [], none⟩ [[1]] [1] 2
          false).1.accuracy_history =
        (⟨[1], 0, 1/100, [], [], none⟩ :
          Perceptron).accuracy_history ++ as ∧
      es.length = as.length ∧ es.length ≤ 2 ∧
      (false = false → es.length = 2) ∧ (1 ≤ 2 → 1 ≤ es.length)) :=
  ⟨rfl, by
    obtain ⟨es, as, h1, h2, h3, h4, h5, h6, h7, h8⟩ :=
      C7_histories_append_only ⟨[1], 0, 1/100, [], [], none⟩ [[1]] [1] 2
        false rfl
    exact ⟨es, as, h1, h2, h3, h4, h5, h6⟩⟩
